import Mathlib

/-!
# Verification of the walk_bg rendering core

Shallow embedding of the walk_bg repository (src/types.rs, src/draw.rs,
src/utils.rs, src/main.rs): the grid/visit data model, the random-walk
stepper, the pixel-compositing algorithm (background fill, intensity-graded
dots, connective edges via Bresenham line rasterization, active-cell
highlighting) and the configure-event state updates.

Modelling conventions:
* `u32`/`u8`/`usize` values are modelled as `Nat` (no arithmetic in the
  verified claims comes near an overflow boundary); `i32` values are `Int`.
* The memory-mapped pixel buffer is a total function `Nat → Nat` from byte
  offset to byte value.  The painting code of `draw.rs` never reads the
  buffer, so its sequence of byte stores is modelled as an explicit write
  trace (a list of `(offset, value)` pairs generated by the same loops, in
  the same order) applied left to right; this is exactly the in-place
  mutation of the source.
* The `f32` arithmetic of `draw.rs` (halving a byte, the `visits/10`
  intensity blend) is modelled by the exact rational value truncated to an
  integer, as `as u8` truncation does in the source; all the quantities
  involved are small enough that the `f32` computations in the source are
  exact or round to the same byte (and no claim below depends on the exact
  blended byte value).
* The ambient entropy of `random_walk_step` (hash of current time and
  coordinates) is injected as an explicit `Nat` parameter `r`; the source
  only uses it through `random % 4`.
-/

namespace WalkBg

/-- Four bytes in memory order, as produced by `u32::to_le_bytes` (BGRA for
the packed ARGB color values of the config). -/
structure Bytes4 where
  b0 : Nat
  b1 : Nat
  b2 : Nat
  b3 : Nat
deriving DecidableEq, Repr

/-- `u32::to_le_bytes`: little-endian byte decomposition of a 32-bit value. -/
def toLeBytes (v : Nat) : Bytes4 :=
  ⟨v % 256, v / 256 % 256, v / 65536 % 256, v / 16777216 % 256⟩

/-- The pixel buffer: byte value at each byte offset (model of the mmap). -/
abbrev Buffer := Nat → Nat

/-- Store one byte at one offset (`mmap[o] = v`). -/
def setByte (b : Buffer) (o v : Nat) : Buffer :=
  fun i => if i = o then v else b i

/-- Apply a trace of byte stores in order. -/
def applyWrites (t : List (Nat × Nat)) (b : Buffer) : Buffer :=
  t.foldl (fun acc pv => setByte acc pv.1 pv.2) b

/-- The four byte stores of one pixel write at pixel `(x, y)`:
`offset = (y * width + x) * 4`, bytes B, G, R, A (draw.rs, the common
pattern at lines 19-23, 108-112 and 139-143). -/
def pxWrites (w : Nat) (col : Bytes4) (x y : Nat) : List (Nat × Nat) :=
  let offset := (y * w + x) * 4
  [(offset, col.b0), (offset + 1, col.b1), (offset + 2, col.b2), (offset + 3, col.b3)]

/-- A pixel write guarded by the clip test
`px >= 0 && px < width && py >= 0 && py < height`; out-of-range writes are
dropped (draw.rs:107, draw.rs:138). -/
def clipPx (w h : Nat) (col : Bytes4) (p : Int × Int) : List (Nat × Nat) :=
  if 0 ≤ p.1 ∧ p.1 < (w : Int) ∧ 0 ≤ p.2 ∧ p.2 < (h : Int) then
    pxWrites w col p.1.toNat p.2.toNat
  else []

/-- The config file format (types.rs `Config`).  The `walks_per_minute`
field (an `f32` only used by the outer event-loop timer) is not needed by
any verified claim and is omitted.  The two boolean flags are modelled from
the spec: draw.rs calls `config.connect_dots()` and
`config.display_active_field()`, whose definitions are missing from the
sources; the spec describes them as "two booleans controlling
connective-edge drawing and active-cell highlighting". -/
structure Config where
  pixels_per_point : Nat
  dot_radius : Nat
  bg_color : Nat
  fg_color : Nat
  active_color : Nat
  connect_dots : Bool
  display_active_field : Bool
deriving DecidableEq, Repr

/-- The `Default` impl for `Config` (types.rs:43-54).  The source gives no
default for the two missing boolean flags; `false` is used here and every
theorem quantifying over configs covers both values. -/
def Config.default : Config :=
  ⟨20, 2, 0xff1a1a1a, 0xff606060, 0xffff0000, false, false⟩

/-- The default config with `pixels_per_point = 50`, as used in the
end-to-end scenario (surface 100×100, spacing 50). -/
def cfg50 : Config :=
  ⟨50, 2, 0xff1a1a1a, 0xff606060, 0xffff0000, false, false⟩

/-- The grid of dots with visit counts (types.rs `Grid`): a dense row-major
`Vec<u8>` of saturating counters. -/
structure Grid where
  width : Nat
  height : Nat
  visits : List Nat
deriving DecidableEq, Repr

/-- `Grid::new` (types.rs:142-149): a zero-filled `width*height` vector. -/
def Grid.new (w h : Nat) : Grid :=
  ⟨w, h, List.replicate (w * h) 0⟩

/-- `Grid::resize` (types.rs:151-157): `visits.resize(size, 0)` followed by
`visits.fill(0)` leaves exactly `width*height` zeros. -/
def Grid.resize (_g : Grid) (w h : Nat) : Grid :=
  ⟨w, h, List.replicate (w * h) 0⟩

/-- `Grid::visit` (types.rs:159-164): in bounds, `u8::saturating_add(1)`
(that is `min (v+1) 255`); out of bounds, a no-op. -/
def Grid.visit (g : Grid) (x y : Nat) : Grid :=
  if x < g.width ∧ y < g.height then
    let idx := y * g.width + x
    ⟨g.width, g.height, g.visits.set idx (min (g.visits.getD idx 0 + 1) 255)⟩
  else g

/-- `Grid::get_visits` (types.rs:166-173): the counter, or zero out of
bounds. -/
def Grid.get_visits (g : Grid) (x y : Nat) : Nat :=
  if x < g.width ∧ y < g.height then g.visits.getD (y * g.width + x) 0 else 0

/-- `n` repeated calls to `Grid::visit` at the same cell. -/
def Grid.visitN (g : Grid) (x y : Nat) : Nat → Grid
  | 0 => g
  | n + 1 => (g.visit x y).visitN x y n

/-- `random_walk_step` (utils.rs:3-22) with the ambient hash value injected
as `r`; the source computes `direction = random % 4` and clamps at the grid
edges (`saturating_sub`, `min(width - 1)`). -/
def random_walk_step (r : Nat) (x y width height : Nat) : Nat × Nat :=
  match r % 4 with
  | 0 => (x, y - 1)
  | 1 => (min (x + 1) (width - 1), y)
  | 2 => (x, min (y + 1) (height - 1))
  | 3 => (x - 1, y)
  | _ => (x, y)

/-- One channel of the intensity blend (draw.rs:44-47):
`(c + (ceil - c) * min(visits/10, 1)) as u8`, computed exactly: for
`visits ≥ 10` the intensity is `1` and the result is the ceiling; otherwise
the exact rational `c + (ceil - c) * vc/10` truncated toward zero.  The
expression is rearranged as `(c*10 + ceil*vc - c*vc) / 10`, which is
non-negative even when `ceil < c`. -/
def blendChannel (c ceil vc : Nat) : Nat :=
  if 10 ≤ vc then ceil else (c * 10 + ceil * vc - c * vc) / 10

/-- The `(r, g, b)` channels of a cell's dot (draw.rs:42-58): the intensity
blend toward the per-channel ceilings 255/200/100, overridden by the
active-highlight color when the cell is the current position and the
highlight flag is on. -/
def cellRGB (cfg : Config) (grid : Grid) (pos : Nat × Nat) (gx gy : Nat) :
    Nat × Nat × Nat :=
  let dc := toLeBytes cfg.fg_color
  let vc := grid.get_visits gx gy
  let r := blendChannel dc.b2 255 vc
  let g := blendChannel dc.b1 200 vc
  let b := blendChannel dc.b0 100 vc
  if (gx, gy) = pos ∧ cfg.display_active_field then
    let hc := toLeBytes cfg.active_color
    (hc.b2, hc.b1, hc.b0)
  else
    (r, g, b)

/-- The BGRA bytes stored for a cell's dot (draw.rs:60): alpha is the
literal `0xff`. -/
def cellDotColor (cfg : Config) (grid : Grid) (pos : Nat × Nat) (gx gy : Nat) :
    Bytes4 :=
  let c := cellRGB cfg grid pos gx gy
  ⟨c.2.2, c.2.1, c.1, 0xff⟩

/-- The connective-edge color (draw.rs:32-37): each foreground channel
halved (`(c as f32 * 0.5) as u8`, exact in `f32`), alpha the literal
`0xff`. -/
def connectionColor (cfg : Config) : Bytes4 :=
  let dc := toLeBytes cfg.fg_color
  ⟨dc.b0 / 2, dc.b1 / 2, dc.b2 / 2, 0xff⟩

/-- The inclusive range `-r ..= r` of `i32` offsets (draw.rs:95-97). -/
def radiusRange (r : Nat) : List Int :=
  (List.range (2 * r + 1)).map (fun i => (i : Int) - (r : Int))

/-- The disk offsets iterated for one dot (draw.rs:95-102): `dy` outer,
`dx` inner, filtered by `dx*dx + dy*dy <= radius*radius` (the `f32`
comparison is exact on these small integers). -/
def diskOffsets (r : Nat) : List (Int × Int) :=
  (radiusRange r).flatMap fun dy =>
    ((radiusRange r).map fun dx => (dx, dy)).filter fun p =>
      decide (p.1 * p.1 + p.2 * p.2 ≤ (r : Int) * (r : Int))

/-- The Bresenham loop of `draw_line` (draw.rs:137-159), fuel-indexed.
Each iteration emits the current point (the plot of draw.rs:138-144, whose
clipping is applied in `drawLineWrites` below), breaks when the current
point equals the endpoint, and otherwise advances `x` and/or `y` by the
signed step according to the doubled error accumulator.  The returned flag
is `true` exactly when the endpoint was reached within the given fuel. -/
def bresLoop : Nat → Int → Int → Int → Int → Int → Int → Int → Int → Int →
    List (Int × Int) × Bool
  | 0, _, _, _, _, _, _, _, _, _ => ([], false)
  | fuel + 1, x1, y1, dx, dy, sx, sy, x, y, err =>
    if x = x1 ∧ y = y1 then ([(x, y)], true)
    else
      let e2 := 2 * err
      let x2 := if e2 > -dy then x + sx else x
      let errA := if e2 > -dy then err - dy else err
      let y2 := if e2 < dx then y + sy else y
      let errB := if e2 < dx then errA + dx else errA
      let rest := bresLoop fuel x1 y1 dx dy sx sy x2 y2 errB
      ((x, y) :: rest.1, rest.2)

/-- The Bresenham loop state after `a` x-steps and `b` y-steps: the current
point is `(x0 + a*sx, y0 + b*sy)` and the error accumulator is
`dx - dy - a*dy + b*dx` (each x-step subtracts `dy` from the accumulator,
each y-step adds `dx`); `a = b = 0` is the loop entry of `draw_line`. -/
def bresSt (x0 y0 x1 y1 sx sy : Int) (dxN dyN f a b : Nat) :
    List (Int × Int) × Bool :=
  bresLoop f x1 y1 (dxN : Int) (dyN : Int) sx sy (x0 + (a : Int) * sx)
    (y0 + (b : Int) * sy)
    ((dxN : Int) - (dyN : Int) - (a : Int) * (dyN : Int) +
      (b : Int) * (dxN : Int))

/-- `draw_line` setup (draw.rs:129-135): `dx = |x1-x0|`, `dy = |y1-y0|`,
signed unit steps, error accumulator `dx - dy`; the loop is run with fuel
`|dx| + |dy| + 1`, which theorem `C8_bresenham_terminates` proves
sufficient to reach the endpoint. -/
def drawLineRun (x0 y0 x1 y1 : Int) : List (Int × Int) × Bool :=
  let dxN := (x1 - x0).natAbs
  let dyN := (y1 - y0).natAbs
  let sx : Int := if x0 < x1 then 1 else -1
  let sy : Int := if y0 < y1 then 1 else -1
  bresLoop (dxN + dyN + 1) x1 y1 (dxN : Int) (dyN : Int) sx sy x0 y0
    ((dxN : Int) - (dyN : Int))

/-- The pixels plotted by `draw_line`, in order. -/
def drawLinePts (x0 y0 x1 y1 : Int) : List (Int × Int) :=
  (drawLineRun x0 y0 x1 y1).1

/-- The byte stores of `draw_line`: each plotted point is written clipped
to `[0, width) × [0, height)` (draw.rs:138-144). -/
def drawLineWrites (w h : Nat) (x0 y0 x1 y1 : Int) (col : Bytes4) :
    List (Nat × Nat) :=
  (drawLinePts x0 y0 x1 y1).flatMap (clipPx w h col)

/-- The byte stores of one grid cell (draw.rs:41-115): the connective edges
to the right and bottom neighbor (draw.rs:65-93) followed by the filled
disk of the hardcoded radius 2 (draw.rs:15 declares `let dot_radius = 2;`;
the configured `dot_radius` is not consulted), every disk pixel clipped to
the buffer bounds. -/
def cellWrites (w h : Nat) (cfg : Config) (grid : Grid) (pos : Nat × Nat)
    (gw gh gx gy : Nat) : List (Nat × Nat) :=
  let spacing := cfg.pixels_per_point
  let col := cellDotColor cfg grid pos gx gy
  let cx : Int := ((gx * spacing : Nat) : Int)
  let cy : Int := ((gy * spacing : Nat) : Int)
  let lineW :=
    if cfg.connect_dots ∧ 0 < grid.get_visits gx gy then
      (if gx + 1 < gw ∧ 0 < grid.get_visits (gx + 1) gy then
        drawLineWrites w h cx cy (((gx + 1) * spacing : Nat) : Int) cy
          (connectionColor cfg)
      else []) ++
      (if gy + 1 < gh ∧ 0 < grid.get_visits gx (gy + 1) then
        drawLineWrites w h cx cy cx (((gy + 1) * spacing : Nat) : Int)
          (connectionColor cfg)
      else [])
    else []
  let diskW := (diskOffsets 2).flatMap fun d =>
    clipPx w h col (cx + d.1, cy + d.2)
  lineW ++ diskW

/-- The byte stores of the background fill (draw.rs:17-25): every pixel of
the buffer, row major, gets the background color bytes. -/
def bgWrites (w h : Nat) (bg : Bytes4) : List (Nat × Nat) :=
  (List.range h).flatMap fun y =>
    (List.range w).flatMap fun x => pxWrites w bg x y

/-- The complete byte-store trace of `draw_dot_grid` (draw.rs:3-116):
background fill, then every grid cell `(grid_x, grid_y)` with `grid_y`
outer, over the grid dimensions `width/spacing + 1` × `height/spacing + 1`
recomputed from the surface size (draw.rs:29-30). -/
def paintWrites (w h : Nat) (cfg : Config) (grid : Grid) (pos : Nat × Nat) :
    List (Nat × Nat) :=
  let bg := toLeBytes cfg.bg_color
  let spacing := cfg.pixels_per_point
  let gw := w / spacing + 1
  let gh := h / spacing + 1
  bgWrites w h bg ++
    (List.range gh).flatMap fun gy =>
      (List.range gw).flatMap fun gx => cellWrites w h cfg grid pos gw gh gx gy

/-- `draw_dot_grid` (draw.rs:3-116) as a buffer transformer. -/
def draw_dot_grid (w h : Nat) (cfg : Config) (grid : Grid) (pos : Nat × Nat)
    (b : Buffer) : Buffer :=
  applyWrites (paintWrites w h cfg grid pos) b

/-- The application state relevant to the configure/draw/walk cycle
(types.rs `App`): surface dimensions, configured flag, grid, current walk
position, and the length of the backing tempfile (`file.set_len`).  The
Wayland handles (surface, pool, mmap) are external resources; the pixel
output of `App::draw` is modelled separately by `draw_dot_grid`. -/
structure App where
  config : Config
  width : Nat
  height : Nat
  configured : Bool
  grid : Grid
  current_pos : Nat × Nat
  fileLen : Nat
deriving DecidableEq, Repr

/-- `App::new` (types.rs:204-226): zero dimensions, unconfigured, a 0×0
grid, position `(0,0)`, empty tempfile. -/
def App.new (cfg : Config) : App :=
  ⟨cfg, 0, 0, false, Grid.new 0 0, (0, 0), 0⟩

/-- The state effect of `App::draw` (types.rs:291-346): when configured
with non-zero dimensions (and the layer surface exists, as it does in the
modelled flow), the current position's visit counter is incremented before
painting; otherwise nothing happens.  The painting itself writes only to
the mapped buffer, modelled by `draw_dot_grid`. -/
def App.drawStep (s : App) : App :=
  if ¬s.configured ∨ s.width = 0 ∨ s.height = 0 then s
  else { s with grid := s.grid.visit s.current_pos.1 s.current_pos.2 }

/-- `LayerShellHandler::configure` (types.rs:431-466), in source order: the
new dimensions are stored, the tempfile length is set to
`width * 4 * height` of those stored dimensions, and only afterwards does a
zero dimension fall back to 1920×1080; then the grid dimensions are derived
from the spacing, the grid is resized, the position recentered, the
configured flag set and a draw issued. -/
def App.configure (s : App) (newW newH : Nat) : App :=
  let s1 := { s with width := newW, height := newH }
  let s2 := { s1 with fileLen := s1.width * 4 * s1.height }
  let s3 := if s2.width = 0 ∨ s2.height = 0 then
      { s2 with width := 1920, height := 1080 }
    else s2
  let gw := s3.width / s3.config.pixels_per_point + 1
  let gh := s3.height / s3.config.pixels_per_point + 1
  App.drawStep { s3 with grid := s3.grid.resize gw gh,
                         current_pos := (gw / 2, gh / 2),
                         configured := true }

/-- One iteration of the walk branch of the main loop (main.rs:48-64):
step from the current position over the grid bounds, store the new
position, redraw (with the ambient hash injected as `r`). -/
def App.walkTick (s : App) (r : Nat) : App :=
  let p := random_walk_step r s.current_pos.1 s.current_pos.2
    s.grid.width s.grid.height
  App.drawStep { s with current_pos := p }

/-- 8-connected adjacency of two distinct pixels: each coordinate differs
by at most one. -/
def adjacentPt (p q : Int × Int) : Prop :=
  p ≠ q ∧ (p.1 - q.1).natAbs ≤ 1 ∧ (p.2 - q.2).natAbs ≤ 1

/-! ## Grid lemmas -/

theorem Grid.visit_width (g : Grid) (x y : Nat) : (g.visit x y).width = g.width := by
  unfold Grid.visit; split <;> rfl

theorem Grid.visit_height (g : Grid) (x y : Nat) : (g.visit x y).height = g.height := by
  unfold Grid.visit; split <;> rfl

theorem Grid.visit_length (g : Grid) (x y : Nat) :
    (g.visit x y).visits.length = g.visits.length := by
  unfold Grid.visit; split <;> simp

theorem Grid.idx_lt (w h x y : Nat) (hx : x < w) (hy : y < h) :
    y * w + x < w * h := by
  have h1 : y * w + x + 1 ≤ (y + 1) * w := by
    rw [Nat.succ_mul]; omega
  have h2 : (y + 1) * w ≤ h * w := Nat.mul_le_mul_right w hy
  have h3 : h * w = w * h := Nat.mul_comm h w
  omega

theorem Grid.get_visits_visit_self (g : Grid) (x y : Nat)
    (hx : x < g.width) (hy : y < g.height)
    (hlen : g.width * g.height ≤ g.visits.length) :
    (g.visit x y).get_visits x y = min (g.get_visits x y + 1) 255 := by
  have hidx : y * g.width + x < g.visits.length :=
    lt_of_lt_of_le (Grid.idx_lt _ _ _ _ hx hy) hlen
  simp only [Grid.visit, Grid.get_visits, if_pos (And.intro hx hy)]
  rw [List.getD_eq_getElem?_getD, List.getElem?_set_self (by simpa using hidx)]
  rfl

theorem Grid.visitN_get (x y : Nat) :
    ∀ (n : Nat) (g : Grid), x < g.width → y < g.height →
      g.width * g.height ≤ g.visits.length → g.get_visits x y ≤ 255 →
      (g.visitN x y n).get_visits x y = min (g.get_visits x y + n) 255 := by
  intro n
  induction n with
  | zero => intro g hx hy _ hv; simp only [Grid.visitN]; omega
  | succ n ih =>
    intro g hx hy hlen hv
    have hx' : x < (g.visit x y).width := by rw [Grid.visit_width]; exact hx
    have hy' : y < (g.visit x y).height := by rw [Grid.visit_height]; exact hy
    have hlen' : (g.visit x y).width * (g.visit x y).height ≤
        (g.visit x y).visits.length := by
      rw [Grid.visit_width, Grid.visit_height, Grid.visit_length]; exact hlen
    have hself := Grid.get_visits_visit_self g x y hx hy hlen
    have hv' : (g.visit x y).get_visits x y ≤ 255 := by rw [hself]; omega
    have := ih (g.visit x y) hx' hy' hlen' hv'
    rw [Grid.visitN, this, hself]
    omega

/-- **C4.** For every `(x, y)` within grid bounds, `get_visits` after `n`
calls to `visit` at that cell on a fresh grid equals `min(n, 255)` (the
counter saturates, never wraps); and a call to `visit` at out-of-bounds
coordinates is a no-op that alters no stored counter. -/
theorem C4_visit_saturation (w h x y n : Nat) :
    (x < w → y < h →
      ((Grid.new w h).visitN x y n).get_visits x y = min n 255) ∧
    (∀ g : Grid, ¬(x < g.width ∧ y < g.height) → g.visit x y = g) := by
  constructor
  · intro hx hy
    have hfresh : (Grid.new w h).get_visits x y = 0 := by
      simp [Grid.new, Grid.get_visits, hx, hy]
    have := Grid.visitN_get x y n (Grid.new w h) hx hy (by simp [Grid.new])
      (by rw [hfresh]; omega)
    rw [this, hfresh]
    omega
  · intro g hg
    unfold Grid.visit
    rw [if_neg hg]

theorem C4_visit_saturation_witness :
    ((1 : Nat) < 2 ∧ (0 : Nat) < 2 ∧
      ((Grid.new 2 2).visitN 1 0 256).get_visits 1 0 = min 256 255) ∧
    (¬((5 : Nat) < 2 ∧ (0 : Nat) < 2) ∧ (Grid.new 2 2).visit 5 0 = Grid.new 2 2) :=
  ⟨⟨by decide, by decide,
      (C4_visit_saturation 2 2 1 0 256).1 (by decide) (by decide)⟩,
   ⟨by decide, (C4_visit_saturation 2 2 5 0 256).2 (Grid.new 2 2) (by decide)⟩⟩

/-! ## Walk-stepper lemmas -/

/-- **C5.** For every grid of dimensions `width ≥ 1`, `height ≥ 1`, every
in-bounds `(x, y)` and every injected random value, `random_walk_step`
stays in `[0, width) × [0, height)`, changes at most one coordinate and
any changed coordinate by exactly one; moving up (`direction 0`) from row
0 stays at row 0, and moving right (`direction 1`) from the last column
stays at the last column. -/
theorem C5_walk_step (r x y w h : Nat) (hw : 1 ≤ w) (hh : 1 ≤ h)
    (hx : x < w) (hy : y < h) :
    (random_walk_step r x y w h).1 < w ∧
    (random_walk_step r x y w h).2 < h ∧
    ((random_walk_step r x y w h).1 = x ∨ (random_walk_step r x y w h).2 = y) ∧
    ((random_walk_step r x y w h).1 ≠ x →
      ((random_walk_step r x y w h).1 = x + 1 ∨
        (random_walk_step r x y w h).1 + 1 = x)) ∧
    ((random_walk_step r x y w h).2 ≠ y →
      ((random_walk_step r x y w h).2 = y + 1 ∨
        (random_walk_step r x y w h).2 + 1 = y)) ∧
    (r % 4 = 0 → y = 0 → random_walk_step r x y w h = (x, y)) ∧
    (r % 4 = 1 → x = w - 1 → random_walk_step r x y w h = (x, y)) := by
  have h4 : r % 4 = 0 ∨ r % 4 = 1 ∨ r % 4 = 2 ∨ r % 4 = 3 := by omega
  rcases h4 with h | h | h | h <;>
    · simp only [random_walk_step, h]
      refine ⟨?_, ?_, ?_, ?_, ?_, ?_, ?_⟩ <;> (intros; try simp_all) <;> omega

theorem C5_walk_step_witness :
    (1 : Nat) ≤ 3 ∧ (1 : Nat) ≤ 3 ∧ (2 : Nat) < 3 ∧ (0 : Nat) < 3 ∧
      (random_walk_step 1 2 0 3 3).1 < 3 :=
  ⟨by decide, by decide, by decide, by decide,
    (C5_walk_step 1 2 0 3 3 (by decide) (by decide) (by decide) (by decide)).1⟩

/-! ## Write-trace lemmas -/

theorem applyWrites_cons (pv : Nat × Nat) (t : List (Nat × Nat)) (b : Buffer) :
    applyWrites (pv :: t) b = applyWrites t (setByte b pv.1 pv.2) := rfl

theorem applyWrites_not_mem (t : List (Nat × Nat)) (b : Buffer) (o : Nat)
    (h : ∀ pv ∈ t, pv.1 ≠ o) : applyWrites t b o = b o := by
  induction t generalizing b with
  | nil => rfl
  | cons pv rest ih =>
    rw [applyWrites_cons, ih _ (fun qv hq => h qv (List.mem_cons_of_mem _ hq))]
    unfold setByte
    rw [if_neg (fun he => (h pv (List.mem_cons_self _ _)) he.symm)]

theorem not_covered_ne (rest : List (Nat × Nat)) (o : Nat)
    (hr : ¬∃ v, (o, v) ∈ rest) : ∀ qv ∈ rest, qv.1 ≠ o := by
  intro qv hq he
  refine hr ⟨qv.2, ?_⟩
  have hqv : (o, qv.2) = qv := by rw [← he]
  rw [hqv]; exact hq

/-- If some write in the trace targets offset `o`, the resulting byte at
`o` does not depend on the initial buffer. -/
theorem applyWrites_indep (t : List (Nat × Nat)) (b1 b2 : Buffer) (o : Nat)
    (hcov : ∃ v, (o, v) ∈ t) : applyWrites t b1 o = applyWrites t b2 o := by
  induction t generalizing b1 b2 with
  | nil => obtain ⟨v, hv⟩ := hcov; simp at hv
  | cons pv rest ih =>
    rw [applyWrites_cons, applyWrites_cons]
    by_cases hr : ∃ v, (o, v) ∈ rest
    · exact ih _ _ hr
    · obtain ⟨v, hv⟩ := hcov
      rcases List.mem_cons.mp hv with hv | hv
      · have ho : o = pv.1 := by rw [← hv]
        rw [applyWrites_not_mem rest _ o (not_covered_ne rest o hr),
          applyWrites_not_mem rest _ o (not_covered_ne rest o hr)]
        unfold setByte
        rw [if_pos ho, if_pos ho]
      · exact absurd ⟨v, hv⟩ hr

/-- If some write in the trace targets offset `o`, the resulting byte at
`o` is the value of one of the writes at `o`. -/
theorem applyWrites_covered (t : List (Nat × Nat)) (b : Buffer) (o : Nat)
    (hcov : ∃ v, (o, v) ∈ t) :
    ∃ v, (o, v) ∈ t ∧ applyWrites t b o = v := by
  induction t generalizing b with
  | nil => obtain ⟨v, hv⟩ := hcov; simp at hv
  | cons pv rest ih =>
    by_cases hr : ∃ v, (o, v) ∈ rest
    · obtain ⟨v, hv, he⟩ := ih (setByte b pv.1 pv.2) hr
      exact ⟨v, List.mem_cons_of_mem _ hv, by rw [applyWrites_cons]; exact he⟩
    · obtain ⟨v, hv⟩ := hcov
      rcases List.mem_cons.mp hv with hv | hv
      · have ho : o = pv.1 := by rw [← hv]
        refine ⟨pv.2, List.mem_cons.mpr (Or.inl (by rw [ho])), ?_⟩
        rw [applyWrites_cons, applyWrites_not_mem rest _ o (not_covered_ne rest o hr)]
        unfold setByte
        rw [if_pos ho]
      · exact absurd ⟨v, hv⟩ hr

/-! ## Bounds and alpha facts about the paint trace -/

theorem pxWrites_spec (w h : Nat) (col : Bytes4) (x y : Nat) (pv : Nat × Nat)
    (hm : pv ∈ pxWrites w col x y) (hx : x < w) (hy : y < h) :
    pv.1 < w * h * 4 ∧ (pv.1 % 4 = 3 → pv.2 = col.b3) := by
  have hidx : y * w + x < w * h := Grid.idx_lt w h x y hx hy
  simp only [pxWrites, List.mem_cons, List.not_mem_nil, or_false] at hm
  generalize hk : y * w + x = k at hm hidx
  generalize hN : w * h = m at hm hidx ⊢
  rcases hm with rfl | rfl | rfl | rfl <;>
    refine ⟨by omega, fun hc => ?_⟩ <;>
      first
        | rfl
        | exact absurd hc (by omega)

theorem clipPx_spec (w h : Nat) (col : Bytes4) (p : Int × Int) (pv : Nat × Nat)
    (hm : pv ∈ clipPx w h col p) :
    pv.1 < w * h * 4 ∧ (pv.1 % 4 = 3 → pv.2 = col.b3) := by
  unfold clipPx at hm
  split at hm
  · next hcond =>
    obtain ⟨h1, h2, h3, h4⟩ := hcond
    exact pxWrites_spec w h col _ _ pv hm (by omega) (by omega)
  · simp at hm

theorem drawLineWrites_spec (w h : Nat) (x0 y0 x1 y1 : Int) (col : Bytes4)
    (pv : Nat × Nat) (hm : pv ∈ drawLineWrites w h x0 y0 x1 y1 col) :
    pv.1 < w * h * 4 ∧ (pv.1 % 4 = 3 → pv.2 = col.b3) := by
  unfold drawLineWrites at hm
  obtain ⟨p, _, hp⟩ := List.mem_flatMap.mp hm
  exact clipPx_spec w h col p pv hp

theorem cellWrites_spec (w h : Nat) (cfg : Config) (grid : Grid)
    (pos : Nat × Nat) (gw gh gx gy : Nat) (pv : Nat × Nat)
    (hm : pv ∈ cellWrites w h cfg grid pos gw gh gx gy) :
    pv.1 < w * h * 4 ∧ (pv.1 % 4 = 3 → pv.2 = 255) := by
  simp only [cellWrites] at hm
  rcases List.mem_append.mp hm with hm | hm
  · split at hm
    · rcases List.mem_append.mp hm with hm | hm <;> split at hm <;> first
        | (have hs := drawLineWrites_spec w h _ _ _ _ _ pv hm
           exact ⟨hs.1, fun hc => by rw [hs.2 hc]; rfl⟩)
        | simp at hm
    · simp at hm
  · obtain ⟨d, _, hp⟩ := List.mem_flatMap.mp hm
    have hs := clipPx_spec w h _ _ pv hp
    exact ⟨hs.1, fun hc => by rw [hs.2 hc]; rfl⟩

theorem paintWrites_spec (w h : Nat) (cfg : Config) (grid : Grid)
    (pos : Nat × Nat) (pv : Nat × Nat) (hm : pv ∈ paintWrites w h cfg grid pos) :
    pv.1 < w * h * 4 ∧
      (pv.1 % 4 = 3 → pv.2 = 255 ∨ pv.2 = (toLeBytes cfg.bg_color).b3) := by
  simp only [paintWrites] at hm
  rcases List.mem_append.mp hm with hm | hm
  · simp only [bgWrites] at hm
    obtain ⟨y, hy, hm⟩ := List.mem_flatMap.mp hm
    obtain ⟨x, hx, hm⟩ := List.mem_flatMap.mp hm
    have hs := pxWrites_spec w h _ x y pv hm (List.mem_range.mp hx)
      (List.mem_range.mp hy)
    exact ⟨hs.1, fun hc => Or.inr (hs.2 hc)⟩
  · obtain ⟨gy, _, hm⟩ := List.mem_flatMap.mp hm
    obtain ⟨gx, _, hm⟩ := List.mem_flatMap.mp hm
    have hs := cellWrites_spec w h cfg grid pos _ _ gx gy pv hm
    exact ⟨hs.1, fun hc => Or.inl (hs.2 hc)⟩

/-- Every in-range byte offset is covered by the background fill. -/
theorem bgWrites_covers (w h : Nat) (bg : Bytes4) (o : Nat)
    (ho : o < w * h * 4) : ∃ v, (o, v) ∈ bgWrites w h bg := by
  have hw : 0 < w := by
    rcases Nat.eq_zero_or_pos w with hw | hw
    · subst hw; simp at ho
    · exact hw
  have hh : 0 < h := by
    rcases Nat.eq_zero_or_pos h with hh | hh
    · subst hh; simp at ho
    · exact hh
  have hqlt : o / 4 < w * h := by omega
  have hxlt : o / 4 % w < w := Nat.mod_lt _ hw
  have hylt : o / 4 / w < h := by
    rw [Nat.div_lt_iff_lt_mul hw]
    calc o / 4 < w * h := hqlt
      _ = h * w := Nat.mul_comm w h
  have hsplit : (o / 4 / w) * w + o / 4 % w = o / 4 := by
    calc (o / 4 / w) * w + o / 4 % w = w * (o / 4 / w) + o / 4 % w := by
          rw [Nat.mul_comm]
      _ = o / 4 := Nat.div_add_mod _ _
  have hmem : ∀ v, (o, v) ∈ pxWrites w bg (o / 4 % w) (o / 4 / w) →
      (o, v) ∈ bgWrites w h bg := by
    intro v hv
    unfold bgWrites
    exact List.mem_flatMap.mpr ⟨o / 4 / w, List.mem_range.mpr hylt,
      List.mem_flatMap.mpr ⟨o / 4 % w, List.mem_range.mpr hxlt, hv⟩⟩
  have hc : o % 4 = 0 ∨ o % 4 = 1 ∨ o % 4 = 2 ∨ o % 4 = 3 := by omega
  rcases hc with hc | hc | hc | hc
  · refine ⟨bg.b0, hmem _ ?_⟩
    have he : o = (o / 4 / w * w + o / 4 % w) * 4 := by
      generalize o / 4 / w * w + o / 4 % w = k at hsplit ⊢; omega
    simp only [pxWrites, List.mem_cons, List.not_mem_nil, or_false]
    exact Or.inl (by rw [← he])
  · refine ⟨bg.b1, hmem _ ?_⟩
    have he : o = (o / 4 / w * w + o / 4 % w) * 4 + 1 := by
      generalize o / 4 / w * w + o / 4 % w = k at hsplit ⊢; omega
    simp only [pxWrites, List.mem_cons, List.not_mem_nil, or_false]
    exact Or.inr (Or.inl (by rw [← he]))
  · refine ⟨bg.b2, hmem _ ?_⟩
    have he : o = (o / 4 / w * w + o / 4 % w) * 4 + 2 := by
      generalize o / 4 / w * w + o / 4 % w = k at hsplit ⊢; omega
    simp only [pxWrites, List.mem_cons, List.not_mem_nil, or_false]
    exact Or.inr (Or.inr (Or.inl (by rw [← he])))
  · refine ⟨bg.b3, hmem _ ?_⟩
    have he : o = (o / 4 / w * w + o / 4 % w) * 4 + 3 := by
      generalize o / 4 / w * w + o / 4 % w = k at hsplit ⊢; omega
    simp only [pxWrites, List.mem_cons, List.not_mem_nil, or_false]
    exact Or.inr (Or.inr (Or.inr (by rw [← he])))

/-- **C6.** For every buffer, config, grid and position, every byte store
performed during a paint (background fill, dots, highlight, connective
lines) lands at an offset inside the `width*height*4`-byte pixel region,
i.e. at a pixel of `[0, width) × [0, height)`; every byte outside that
region is untouched (out-of-range writes are silently dropped, and no
out-of-bounds buffer access occurs). -/
theorem C6_paint_writes_in_bounds (w h : Nat) (cfg : Config) (grid : Grid)
    (pos : Nat × Nat) (b : Buffer) (o : Nat) (ho : w * h * 4 ≤ o) :
    draw_dot_grid w h cfg grid pos b o = b o := by
  unfold draw_dot_grid
  apply applyWrites_not_mem
  intro pv hpv
  have := (paintWrites_spec w h cfg grid pos pv hpv).1
  omega

theorem C6_paint_writes_in_bounds_witness :
    draw_dot_grid 1 1 Config.default (Grid.new 1 1) (0, 0) (fun _ => 7) 4 = 7 :=
  C6_paint_writes_in_bounds 1 1 Config.default (Grid.new 1 1) (0, 0)
    (fun _ => 7) 4 (by decide)

/-- **C9.** Painting is independent of the buffer's prior contents on the
whole pixel region (the background fill first overwrites every pixel), so
two paints with identical width, height, config, grid and current position
yield byte-identical pixel regions. -/
theorem C9_paint_deterministic (w h : Nat) (cfg : Config) (grid : Grid)
    (pos : Nat × Nat) (b1 b2 : Buffer) (o : Nat) (ho : o < w * h * 4) :
    draw_dot_grid w h cfg grid pos b1 o = draw_dot_grid w h cfg grid pos b2 o := by
  unfold draw_dot_grid
  apply applyWrites_indep
  obtain ⟨v, hv⟩ := bgWrites_covers w h (toLeBytes cfg.bg_color) o ho
  refine ⟨v, ?_⟩
  simp only [paintWrites]
  exact List.mem_append.mpr (Or.inl hv)

theorem C9_paint_deterministic_witness :
    draw_dot_grid 1 1 Config.default (Grid.new 1 1) (0, 0) (fun _ => 3) 0 =
      draw_dot_grid 1 1 Config.default (Grid.new 1 1) (0, 0) (fun _ => 9) 0 :=
  C9_paint_deterministic 1 1 Config.default (Grid.new 1 1) (0, 0)
    (fun _ => 3) (fun _ => 9) 0 (by decide)

/-- **C10.** Every byte stored for a dot (blended or highlighted) and every
connective-edge pixel has its alpha byte forced to `0xff` regardless of the
alpha channels of the configured foreground/active colors; only the
background fill carries the configured background color's alpha byte, so
every alpha byte of the painted region is `0xff` or the background's alpha
byte. -/
theorem C10_alpha_forced :
    (∀ (cfg : Config) (grid : Grid) (pos : Nat × Nat) (gx gy : Nat),
      (cellDotColor cfg grid pos gx gy).b3 = 255) ∧
    (∀ cfg : Config, (connectionColor cfg).b3 = 255) ∧
    (∀ (w h : Nat) (cfg : Config) (grid : Grid) (pos : Nat × Nat)
        (b : Buffer) (o : Nat), o < w * h * 4 → o % 4 = 3 →
      draw_dot_grid w h cfg grid pos b o = 255 ∨
        draw_dot_grid w h cfg grid pos b o = (toLeBytes cfg.bg_color).b3) := by
  refine ⟨fun cfg grid pos gx gy => rfl, fun cfg => rfl, ?_⟩
  intro w h cfg grid pos b o ho hc
  obtain ⟨v0, hv0⟩ := bgWrites_covers w h (toLeBytes cfg.bg_color) o ho
  have hcov : ∃ v, (o, v) ∈ paintWrites w h cfg grid pos := by
    refine ⟨v0, ?_⟩
    simp only [paintWrites]
    exact List.mem_append.mpr (Or.inl hv0)
  obtain ⟨v, hvmem, hveq⟩ := applyWrites_covered _ b o hcov
  have := (paintWrites_spec w h cfg grid pos (o, v) hvmem).2 hc
  unfold draw_dot_grid
  rw [hveq]
  exact this

theorem C10_alpha_forced_witness :
    draw_dot_grid 1 1 Config.default (Grid.new 1 1) (0, 0) (fun _ => 0) 3 = 255 ∨
      draw_dot_grid 1 1 Config.default (Grid.new 1 1) (0, 0) (fun _ => 0) 3 =
        (toLeBytes Config.default.bg_color).b3 :=
  C10_alpha_forced.2.2 1 1 Config.default (Grid.new 1 1) (0, 0) (fun _ => 0) 3
    (by decide) (by decide)

/-! ## Configure-event and end-to-end scenario -/

/-- **C1** (divergence evaluation): `configure` calls
`file.set_len(width * 4 * height)` (types.rs:442) before applying the
1920×1080 zero-dimension fallback (types.rs:446-449).  After a configure
event with `new_size = (0, 0)` the surface dimensions are the defaulted
1920×1080 but the backing store's length is `0*4*0 = 0`, not
`width*4*height` of the current (defaulted) dimensions as the claim
states. -/
theorem C1_configure_zero_divergence :
    ((App.new Config.default).configure 0 0).width = 1920 ∧
    ((App.new Config.default).configure 0 0).height = 1080 ∧
    ((App.new Config.default).configure 0 0).fileLen = 0 ∧
    ((App.new Config.default).configure 0 0).fileLen ≠
      ((App.new Config.default).configure 0 0).width * 4 *
        ((App.new Config.default).configure 0 0).height := by
  decide

/-- **C2** (divergence evaluation): the renderer ignores the configured
`dot_radius` (draw.rs:15 hardcodes `let dot_radius = 2;` and
`Config::get_dot_radius` is never called).  With `dot_radius = 0`
configured, the claim allows only offsets with `dx²+dy² ≤ 0` — the cell
center alone — to be dot-colored; yet pixel `(1, 0)`, at squared distance
1 from the center `(0, 0)`, receives the zero-intensity blended dot color
(blue byte `0x60`), not the background blue byte `0x1a`. -/
theorem C2_dot_radius_ignored :
    (⟨20, 0, 0xff1a1a1a, 0xff606060, 0xffff0000, false, false⟩ : Config).dot_radius
        = 0 ∧
    draw_dot_grid 5 5 ⟨20, 0, 0xff1a1a1a, 0xff606060, 0xffff0000, false, false⟩
        (Grid.new 1 1) (0, 0) (fun _ => 0) 4 = 0x60 ∧
    (toLeBytes 0xff1a1a1a).b0 = 0x1a := by
  decide

/-- **C3** (counterexample to the claim as stated): after configuring
100×100 with spacing 50 the grid is 3×3 and the position recenters to
`(1, 1)`, but the configure event's own draw already records a visit at
`(1, 1)` (types.rs:465 calls `draw`, which visits the current position,
types.rs:313).  After one walk step (injected direction 0, moving to
`(1, 0)`) and its redraw, cell `(1, 1)` is not the new position yet holds
visit count 1, refuting "get_visits at every other cell equals 0". -/
theorem C3_counterexample :
    (((App.new cfg50).configure 100 100).walkTick 0).current_pos = (1, 0) ∧
    ((1 : Nat), (1 : Nat)) ≠ ((1 : Nat), (0 : Nat)) ∧
    (((App.new cfg50).configure 100 100).walkTick 0).grid.get_visits 1 1 = 1 := by
  decide

/-- **C3 (amended).** After `configure(100, 100)` with spacing 50, the grid
is resized to 3×3 and the walk position recentered to `(1, 1)`; the
configure event's own draw records one visit at `(1, 1)`.  One walk step
from `(1, 1)` yields one of `(1,0), (2,1), (1,2), (0,1)`; after the step
and the redraw it triggers, `get_visits` at the new position equals 1,
`get_visits` at `(1, 1)` equals 1 (from the initial configure draw), and
`get_visits` at every other cell equals 0. -/
theorem C3_endtoend_amended (r x y : Nat) :
    ((App.new cfg50).configure 100 100).grid.width = 3 ∧
    ((App.new cfg50).configure 100 100).grid.height = 3 ∧
    ((App.new cfg50).configure 100 100).current_pos = (1, 1) ∧
    (((App.new cfg50).configure 100 100).walkTick r).current_pos ∈
      [((1 : Nat), (0 : Nat)), (2, 1), (1, 2), (0, 1)] ∧
    (((App.new cfg50).configure 100 100).walkTick r).grid.get_visits
        (((App.new cfg50).configure 100 100).walkTick r).current_pos.1
        (((App.new cfg50).configure 100 100).walkTick r).current_pos.2 = 1 ∧
    (((App.new cfg50).configure 100 100).walkTick r).grid.get_visits 1 1 = 1 ∧
    ((x, y) ≠ (((App.new cfg50).configure 100 100).walkTick r).current_pos →
      (x, y) ≠ ((1 : Nat), (1 : Nat)) →
      (((App.new cfg50).configure 100 100).walkTick r).grid.get_visits x y = 0) := by
  have hs1 : (App.new cfg50).configure 100 100 =
      ⟨cfg50, 100, 100, true, ⟨3, 3, [0, 0, 0, 0, 1, 0, 0, 0, 0]⟩, (1, 1), 40000⟩ := by
    decide
  have hr4 : r % 4 = 0 ∨ r % 4 = 1 ∨ r % 4 = 2 ∨ r % 4 = 3 := by omega
  rcases hr4 with hr | hr | hr | hr
  · have hstep : random_walk_step r 1 1 3 3 = (1, 0) := by
      simp only [random_walk_step, hr]; try decide
    have hs2 : ((App.new cfg50).configure 100 100).walkTick r =
        ⟨cfg50, 100, 100, true, ⟨3, 3, [0, 1, 0, 0, 1, 0, 0, 0, 0]⟩, (1, 0), 40000⟩ := by
      rw [hs1]; simp only [App.walkTick]; rw [hstep]; decide
    rw [hs2, hs1]
    refine ⟨by decide, by decide, by decide, by decide, by decide, by decide, ?_⟩
    intro h1 h2
    by_cases hx3 : x < 3
    · by_cases hy3 : y < 3
      · interval_cases x <;> interval_cases y <;>
          first
            | exact absurd rfl h1
            | exact absurd rfl h2
            | decide
      · unfold Grid.get_visits
        rw [if_neg (fun hcon => hy3 hcon.2)]
    · unfold Grid.get_visits
      rw [if_neg (fun hcon => hx3 hcon.1)]
  · have hstep : random_walk_step r 1 1 3 3 = (2, 1) := by
      simp only [random_walk_step, hr]; try decide
    have hs2 : ((App.new cfg50).configure 100 100).walkTick r =
        ⟨cfg50, 100, 100, true, ⟨3, 3, [0, 0, 0, 0, 1, 1, 0, 0, 0]⟩, (2, 1), 40000⟩ := by
      rw [hs1]; simp only [App.walkTick]; rw [hstep]; decide
    rw [hs2, hs1]
    refine ⟨by decide, by decide, by decide, by decide, by decide, by decide, ?_⟩
    intro h1 h2
    by_cases hx3 : x < 3
    · by_cases hy3 : y < 3
      · interval_cases x <;> interval_cases y <;>
          first
            | exact absurd rfl h1
            | exact absurd rfl h2
            | decide
      · unfold Grid.get_visits
        rw [if_neg (fun hcon => hy3 hcon.2)]
    · unfold Grid.get_visits
      rw [if_neg (fun hcon => hx3 hcon.1)]
  · have hstep : random_walk_step r 1 1 3 3 = (1, 2) := by
      simp only [random_walk_step, hr]; try decide
    have hs2 : ((App.new cfg50).configure 100 100).walkTick r =
        ⟨cfg50, 100, 100, true, ⟨3, 3, [0, 0, 0, 0, 1, 0, 0, 1, 0]⟩, (1, 2), 40000⟩ := by
      rw [hs1]; simp only [App.walkTick]; rw [hstep]; decide
    rw [hs2, hs1]
    refine ⟨by decide, by decide, by decide, by decide, by decide, by decide, ?_⟩
    intro h1 h2
    by_cases hx3 : x < 3
    · by_cases hy3 : y < 3
      · interval_cases x <;> interval_cases y <;>
          first
            | exact absurd rfl h1
            | exact absurd rfl h2
            | decide
      · unfold Grid.get_visits
        rw [if_neg (fun hcon => hy3 hcon.2)]
    · unfold Grid.get_visits
      rw [if_neg (fun hcon => hx3 hcon.1)]
  · have hstep : random_walk_step r 1 1 3 3 = (0, 1) := by
      simp only [random_walk_step, hr]; try decide
    have hs2 : ((App.new cfg50).configure 100 100).walkTick r =
        ⟨cfg50, 100, 100, true, ⟨3, 3, [0, 0, 0, 1, 1, 0, 0, 0, 0]⟩, (0, 1), 40000⟩ := by
      rw [hs1]; simp only [App.walkTick]; rw [hstep]; decide
    rw [hs2, hs1]
    refine ⟨by decide, by decide, by decide, by decide, by decide, by decide, ?_⟩
    intro h1 h2
    by_cases hx3 : x < 3
    · by_cases hy3 : y < 3
      · interval_cases x <;> interval_cases y <;>
          first
            | exact absurd rfl h1
            | exact absurd rfl h2
            | decide
      · unfold Grid.get_visits
        rw [if_neg (fun hcon => hy3 hcon.2)]
    · unfold Grid.get_visits
      rw [if_neg (fun hcon => hx3 hcon.1)]

theorem C3_endtoend_amended_witness :
    (((App.new cfg50).configure 100 100).walkTick 1).grid.get_visits 0 0 = 0 :=
  (C3_endtoend_amended 1 0 0).2.2.2.2.2.2 (by decide) (by decide)

/-! ## Bresenham line rasterization -/

theorem path_cons (x1 y1 : Int) (p next : Int × Int) (L : List (Int × Int))
    (hhead : L.head? = some next) (hlast : L.getLast? = some (x1, y1))
    (hch : List.Chain' adjacentPt L) (hadj : adjacentPt p next) :
    (p :: L).head? = some p ∧ (p :: L).getLast? = some (x1, y1) ∧
      List.Chain' adjacentPt (p :: L) := by
  cases L with
  | nil => simp at hhead
  | cons q t =>
    have hq : q = next := by simpa using hhead
    subst hq
    refine ⟨rfl, ?_, ?_⟩
    · rw [List.getLast?_cons_cons]; exact hlast
    · refine List.chain'_cons'.mpr ⟨?_, hch⟩
      intro z hz
      have hzq : q = z := by simpa using hz
      rw [← hzq]
      exact hadj

/-- Completion and path shape of the Bresenham loop: starting from the
state after `a` x-steps and `b` y-steps (with `a ≤ |dx|`, `b ≤ |dy|`), fuel
exceeding the remaining step count reaches the endpoint, and the emitted
pixels form an 8-connected path from the current point to the endpoint. -/
theorem bres_main (x0 y0 x1 y1 sx sy : Int) (dxN dyN : Nat)
    (hsx : sx = 1 ∨ sx = -1) (hsy : sy = 1 ∨ sy = -1)
    (hx1 : x1 = x0 + (dxN : Int) * sx) (hy1 : y1 = y0 + (dyN : Int) * sy) :
    ∀ (f a b : Nat), a ≤ dxN → b ≤ dyN → dxN - a + (dyN - b) < f →
      (bresSt x0 y0 x1 y1 sx sy dxN dyN f a b).2 = true ∧
      (bresSt x0 y0 x1 y1 sx sy dxN dyN f a b).1.head? =
        some (x0 + (a : Int) * sx, y0 + (b : Int) * sy) ∧
      (bresSt x0 y0 x1 y1 sx sy dxN dyN f a b).1.getLast? = some (x1, y1) ∧
      List.Chain' adjacentPt (bresSt x0 y0 x1 y1 sx sy dxN dyN f a b).1 := by
  intro f
  induction f with
  | zero => intro a b ha hb hf; exact absurd hf (by omega)
  | succ f ih =>
    intro a b ha hb hf
    have hxiff : x0 + (a : Int) * sx = x1 ↔ a = dxN := by
      rcases hsx with h | h <;> rw [hx1, h] <;> omega
    have hyiff : y0 + (b : Int) * sy = y1 ↔ b = dyN := by
      rcases hsy with h | h <;> rw [hy1, h] <;> omega
    by_cases hend : x0 + (a : Int) * sx = x1 ∧ y0 + (b : Int) * sy = y1
    · have hres : bresSt x0 y0 x1 y1 sx sy dxN dyN (f + 1) a b =
          ([(x0 + (a : Int) * sx, y0 + (b : Int) * sy)], true) := by
        simp only [bresSt, bresLoop]
        rw [if_pos hend]
      rw [hres]
      refine ⟨rfl, rfl, ?_, List.chain'_singleton _⟩
      simp [hend.1, hend.2]
    · have hne : ¬(a = dxN ∧ b = dyN) := fun hcon =>
        hend ⟨hxiff.mpr hcon.1, hyiff.mpr hcon.2⟩
      simp only [bresSt]
      set E : Int := (dxN : Int) - (dyN : Int) - (a : Int) * (dyN : Int) +
        (b : Int) * (dxN : Int) with hE
      have hover1 : a = dxN → ¬(2 * E > -(dyN : Int)) := by
        intro haeq
        have hblt : b < dyN := by
          rcases Nat.lt_or_ge b dyN with hh | hh
          · exact hh
          · exact absurd ⟨haeq, le_antisymm hb hh⟩ hne
        intro hgt
        rw [hE, haeq] at hgt
        have hmul : (dxN : Int) * ((b : Int) + 1) ≤ (dxN : Int) * (dyN : Int) :=
          mul_le_mul_of_nonneg_left (by omega) (Int.natCast_nonneg dxN)
        nlinarith [Int.natCast_nonneg dyN]
      have hover2 : b = dyN → ¬(2 * E < (dxN : Int)) := by
        intro hbeq
        have halt : a < dxN := by
          rcases Nat.lt_or_ge a dxN with hh | hh
          · exact hh
          · exact absurd ⟨le_antisymm ha hh, hbeq⟩ hne
        intro hlt
        rw [hE, hbeq] at hlt
        have hmul : (dyN : Int) * ((a : Int) + 1) ≤ (dyN : Int) * (dxN : Int) :=
          mul_le_mul_of_nonneg_left (by omega) (Int.natCast_nonneg dyN)
        nlinarith [Int.natCast_nonneg dxN]
      simp only [bresLoop]
      rw [if_neg hend]
      by_cases hc1 : 2 * E > -(dyN : Int) <;> by_cases hc2 : 2 * E < (dxN : Int)
      · -- both axes advance
        simp only [if_pos hc1, if_pos hc2]
        have haN : a < dxN := by
          rcases Nat.lt_or_ge a dxN with hh | hh
          · exact hh
          · exact absurd hc1 (hover1 (le_antisymm ha hh))
        have hbN : b < dyN := by
          rcases Nat.lt_or_ge b dyN with hh | hh
          · exact hh
          · exact absurd hc2 (hover2 (le_antisymm hb hh))
        have ihh := ih (a + 1) (b + 1) (by omega) (by omega) (by omega)
        simp only [bresSt] at ihh
        push_cast at ihh
        have ex : x0 + ((a : Int) + 1) * sx = x0 + (a : Int) * sx + sx := by ring
        have ey : y0 + ((b : Int) + 1) * sy = y0 + (b : Int) * sy + sy := by ring
        have ee : (dxN : Int) - (dyN : Int) - ((a : Int) + 1) * (dyN : Int) +
            ((b : Int) + 1) * (dxN : Int) = E - (dyN : Int) + (dxN : Int) := by
          rw [hE]; ring
        rw [ex, ey, ee] at ihh
        obtain ⟨hdone, hhead, hlast, hch⟩ := ihh
        have hadj : adjacentPt (x0 + (a : Int) * sx, y0 + (b : Int) * sy)
            (x0 + (a : Int) * sx + sx, y0 + (b : Int) * sy + sy) := by
          refine ⟨?_, ?_, ?_⟩
          · intro heq
            have h1 := congrArg Prod.fst heq
            rcases hsx with h | h <;> rw [h] at h1 <;> simp at h1
          · rcases hsx with h | h <;> rw [h] <;> simp
          · rcases hsy with h | h <;> rw [h] <;> simp
        have hp := path_cons x1 y1 _ _ _ hhead hlast hch hadj
        exact ⟨hdone, hp.1, hp.2.1, hp.2.2⟩
      · -- only x advances
        simp only [if_pos hc1, if_neg hc2]
        have haN : a < dxN := by
          rcases Nat.lt_or_ge a dxN with hh | hh
          · exact hh
          · exact absurd hc1 (hover1 (le_antisymm ha hh))
        have ihh := ih (a + 1) b (by omega) hb (by omega)
        simp only [bresSt] at ihh
        push_cast at ihh
        have ex : x0 + ((a : Int) + 1) * sx = x0 + (a : Int) * sx + sx := by ring
        have ee : (dxN : Int) - (dyN : Int) - ((a : Int) + 1) * (dyN : Int) +
            (b : Int) * (dxN : Int) = E - (dyN : Int) := by
          rw [hE]; ring
        rw [ex, ee] at ihh
        obtain ⟨hdone, hhead, hlast, hch⟩ := ihh
        have hadj : adjacentPt (x0 + (a : Int) * sx, y0 + (b : Int) * sy)
            (x0 + (a : Int) * sx + sx, y0 + (b : Int) * sy) := by
          refine ⟨?_, ?_, ?_⟩
          · intro heq
            have h1 := congrArg Prod.fst heq
            rcases hsx with h | h <;> rw [h] at h1 <;> simp at h1
          · rcases hsx with h | h <;> rw [h] <;> simp
          · simp
        have hp := path_cons x1 y1 _ _ _ hhead hlast hch hadj
        exact ⟨hdone, hp.1, hp.2.1, hp.2.2⟩
      · -- only y advances
        simp only [if_neg hc1, if_pos hc2]
        have hbN : b < dyN := by
          rcases Nat.lt_or_ge b dyN with hh | hh
          · exact hh
          · exact absurd hc2 (hover2 (le_antisymm hb hh))
        have ihh := ih a (b + 1) ha (by omega) (by omega)
        simp only [bresSt] at ihh
        push_cast at ihh
        have ey : y0 + ((b : Int) + 1) * sy = y0 + (b : Int) * sy + sy := by ring
        have ee : (dxN : Int) - (dyN : Int) - (a : Int) * (dyN : Int) +
            ((b : Int) + 1) * (dxN : Int) = E + (dxN : Int) := by
          rw [hE]; ring
        rw [ey, ee] at ihh
        obtain ⟨hdone, hhead, hlast, hch⟩ := ihh
        have hadj : adjacentPt (x0 + (a : Int) * sx, y0 + (b : Int) * sy)
            (x0 + (a : Int) * sx, y0 + (b : Int) * sy + sy) := by
          refine ⟨?_, ?_, ?_⟩
          · intro heq
            have h1 := congrArg Prod.snd heq
            rcases hsy with h | h <;> rw [h] at h1 <;> simp at h1
          · simp
          · rcases hsy with h | h <;> rw [h] <;> simp
        have hp := path_cons x1 y1 _ _ _ hhead hlast hch hadj
        exact ⟨hdone, hp.1, hp.2.1, hp.2.2⟩
      · -- no axis advances: impossible away from the endpoint
        exfalso
        push_neg at hc1 hc2
        have h3 : (dxN : Int) ≤ -(dyN : Int) := le_trans hc2 hc1
        omega

/-- The full `draw_line` run (fuel `|dx| + |dy| + 1`) reaches the endpoint
and its plotted pixels form an 8-connected path from `(x0, y0)` to
`(x1, y1)`. -/
theorem drawLineRun_spec (x0 y0 x1 y1 : Int) :
    (drawLineRun x0 y0 x1 y1).2 = true ∧
    (drawLineRun x0 y0 x1 y1).1.head? = some (x0, y0) ∧
    (drawLineRun x0 y0 x1 y1).1.getLast? = some (x1, y1) ∧
    List.Chain' adjacentPt (drawLineRun x0 y0 x1 y1).1 := by
  have hsx : (if x0 < x1 then (1 : Int) else -1) = 1 ∨
      (if x0 < x1 then (1 : Int) else -1) = -1 := by
    split
    · exact Or.inl rfl
    · exact Or.inr rfl
  have hsy : (if y0 < y1 then (1 : Int) else -1) = 1 ∨
      (if y0 < y1 then (1 : Int) else -1) = -1 := by
    split
    · exact Or.inl rfl
    · exact Or.inr rfl
  have hx1 : x1 = x0 + ((x1 - x0).natAbs : Int) *
      (if x0 < x1 then (1 : Int) else -1) := by
    split <;> omega
  have hy1 : y1 = y0 + ((y1 - y0).natAbs : Int) *
      (if y0 < y1 then (1 : Int) else -1) := by
    split <;> omega
  have H := bres_main x0 y0 x1 y1 (if x0 < x1 then (1 : Int) else -1)
    (if y0 < y1 then (1 : Int) else -1) (x1 - x0).natAbs (y1 - y0).natAbs
    hsx hsy hx1 hy1 ((x1 - x0).natAbs + (y1 - y0).natAbs + 1) 0 0
    (Nat.zero_le _) (Nat.zero_le _) (by omega)
  simp only [bresSt, Nat.cast_zero, zero_mul, add_zero, sub_zero] at H
  simp only [drawLineRun]
  exact H

/-- **C7.** `draw_line` from `(0,0)` to `(5,0)` plots exactly the 6 pixels
`(0,0) … (5,0)`; from `(0,0)` to `(3,3)` exactly the 4 diagonal pixels;
from `(2,2)` to `(2,2)` exactly one pixel; and in general the plotted
pixels form a connected 8-connected path from the start point to the end
point (consecutive pixels are distinct and differ by at most one in each
coordinate). -/
theorem C7_line_pixels :
    drawLinePts 0 0 5 0 = [(0, 0), (1, 0), (2, 0), (3, 0), (4, 0), (5, 0)] ∧
    drawLinePts 0 0 3 3 = [(0, 0), (1, 1), (2, 2), (3, 3)] ∧
    drawLinePts 2 2 2 2 = [(2, 2)] ∧
    ∀ x0 y0 x1 y1 : Int,
      (drawLinePts x0 y0 x1 y1).head? = some (x0, y0) ∧
      (drawLinePts x0 y0 x1 y1).getLast? = some (x1, y1) ∧
      List.Chain' adjacentPt (drawLinePts x0 y0 x1 y1) := by
  refine ⟨by decide, by decide, by decide, fun x0 y0 x1 y1 => ?_⟩
  have H := drawLineRun_spec x0 y0 x1 y1
  exact ⟨H.2.1, H.2.2.1, H.2.2.2⟩

/-- **C8.** For every pair of integer endpoints, the Bresenham loop of
`draw_line` terminates: run with fuel `|dx| + |dy| + 1`, the current point
reaches the endpoint (the loop's `break` fires) within that many
iterations. -/
theorem C8_bresenham_terminates (x0 y0 x1 y1 : Int) :
    (drawLineRun x0 y0 x1 y1).2 = true :=
  (drawLineRun_spec x0 y0 x1 y1).1

end WalkBg
